import Mathlib

/-!
Verification of the tree-conflict classification and merge-application
engine described in `spec.md` of the subversion repository, against the
behaviour pinned down by `src/subversion/tests/cmdline/merge_tree_conflict_tests.py`.
The engine itself (conflict classifier, merge tree walker, mergeinfo
recorder, outcome reporter) is not shipped under `src/`; only its test
oracle is.  The definitions below are therefore modelled from the spec
(each such definition says so in its doc comment) and checked against the
concrete scenarios of the test file.
-/

namespace Svn

/-- A path relative to the merge target root: an ordered sequence of path
segments (spec section 3, Node). -/
abbrev Path := List String

/-- Modelled from the spec: section 3, obstruction payload of `Obstructed`
together with the classifier row for obstructions in section 4.1 (policy:
unversioned obstruction versus versioned item of foreign kind). -/
inductive Obstruction where
  | unversionedItem
  | versionedForeignKind
  deriving DecidableEq, Repr

/-- Modelled from the spec: section 3, `LocalState` tagged variant reported
by the Working-Tree State Oracle. -/
inductive LocalState where
  | Unmodified
  | Edited (props_changed content_changed : Bool)
  | DeletedLeaf
  | DeletedSubtreeRoot
  | Added
  | Replaced
  | MissingFromDisk
  | Obstructed (existing : Obstruction)
  deriving DecidableEq, Repr

/-- Modelled from the spec: section 3, `IncomingAction` tagged variant
derived from the Revision Delta Source. -/
inductive IncomingAction where
  | Edit
  | DeleteLeaf
  | DeleteSubtreeRoot
  | Add
  | Replace
  deriving DecidableEq, Repr

/-- Modelled from the spec: section 3, the reason payload of `Skip`
decisions (sections 4.2 and 7: obstruction, missing from disk, ancestor
already conflicted or skipped). -/
inductive SkipReason where
  | ancestorConflicted
  | ancestorSkipped
  | missingFromDisk
  | obstructed
  deriving DecidableEq, Repr

/-- Modelled from the spec: section 3, `Decision` tagged variant.  The
`TreeConflict` descriptor carries the local state and incoming action that
collided, as in the spec's `TreeConflict{local_state, incoming_action, recorded_at}`
(the recording location is the decided path itself and is kept implicitly
as the path component of the walker's output). -/
inductive Decision where
  | Apply
  | Skip (reason : SkipReason)
  | TreeConflict (localSt : LocalState) (incoming : IncomingAction)
  deriving DecidableEq, Repr

/-- True exactly on `TreeConflict` decisions. -/
def Decision.isConflict : Decision → Bool
  | .TreeConflict _ _ => true
  | _ => false

/-- True exactly on `Skip` decisions. -/
def Decision.isSkip : Decision → Bool
  | .Skip _ => true
  | _ => false

/-- Modelled from the spec: section 4.1, the pure, total conflict
classifier `classify(local_state, incoming_action, node_kind, has_local_mods_in_subtree)`.
The two extra Boolean facts come straight from the cells of the design
table: `localCounterpart` says whether the path already exists in the
local tree (the table's Add column is headed "Add (no local counterpart)",
and the Edited row escalates an incoming Add to a tree conflict when the
path is "already occupied"); `incomingMatchesLocal` says whether the
incoming node has the same kind and identical content as the local one
(the Added row conflicts "when kinds differ or content diverges; else
merge as Edit", and the node-kind argument of the contract is subsumed by
this kind-and-content comparison).  Cells the table marks "n/a" are
structural mismatches and classify as tree conflicts, keeping the function
total as the spec requires. -/
def classify (l : LocalState) (i : IncomingAction)
    (hasLocalModsInSubtree localCounterpart incomingMatchesLocal : Bool) :
    Decision :=
  match l, i with
  | .MissingFromDisk, _ => .Skip .missingFromDisk
  | .Obstructed .unversionedItem, _ => .Skip .obstructed
  | .Obstructed .versionedForeignKind, _ => .TreeConflict l i
  | .Unmodified, .Edit => .Apply
  | .Unmodified, .DeleteLeaf => .Apply
  | .Unmodified, .DeleteSubtreeRoot =>
      if hasLocalModsInSubtree then .TreeConflict l i else .Apply
  | .Unmodified, .Add =>
      if localCounterpart && !incomingMatchesLocal then .TreeConflict l i else .Apply
  | .Unmodified, .Replace => .Apply
  | .Edited _ _, .Edit => .Apply
  | .Edited _ _, .DeleteLeaf => .TreeConflict l i
  | .Edited _ _, .DeleteSubtreeRoot => .TreeConflict l i
  | .Edited _ _, .Add =>
      if localCounterpart then .TreeConflict l i else .Apply
  | .Edited _ _, .Replace => .TreeConflict l i
  | .DeletedLeaf, .Edit => .TreeConflict l i
  | .DeletedLeaf, .DeleteLeaf => .Apply
  | .DeletedLeaf, .DeleteSubtreeRoot => .Apply
  | .DeletedLeaf, .Add => .Apply
  | .DeletedLeaf, .Replace => .TreeConflict l i
  | .DeletedSubtreeRoot, .Edit => .TreeConflict l i
  | .DeletedSubtreeRoot, .DeleteLeaf => .Apply
  | .DeletedSubtreeRoot, .DeleteSubtreeRoot => .Apply
  | .DeletedSubtreeRoot, .Add => .Apply
  | .DeletedSubtreeRoot, .Replace => .TreeConflict l i
  | .Added, .Edit =>
      if incomingMatchesLocal then .Apply else .TreeConflict l i
  | .Added, .DeleteLeaf => .TreeConflict l i
  | .Added, .DeleteSubtreeRoot => .TreeConflict l i
  | .Added, .Add => .TreeConflict l i
  | .Added, .Replace => .TreeConflict l i
  | .Replaced, _ => .TreeConflict l i

/-- Modelled from the spec: sections 2 and 4.1, the per-path answers of
the Working-Tree State Oracle, bundled so the walker can consult them:
the local state plus the Boolean facts the classifier contract
mentions. -/
structure NodeInfo where
  state : LocalState
  hasLocalModsInSubtree : Bool
  localCounterpart : Bool
  incomingMatchesLocal : Bool
  deriving DecidableEq, Repr

/-- `ancestorOf p q` holds when `p` is `q` itself or an ancestor of `q`
(segment-wise path containment). -/
def ancestorOf : Path → Path → Bool
  | [], _ => true
  | _ :: _, [] => false
  | a :: as, b :: bs => a == b && ancestorOf as bs

/-- `strictAncestorOf p q` holds when `p` is a strict (proper) ancestor of
the path `q`. -/
def strictAncestorOf (p q : Path) : Bool :=
  ancestorOf p q && decide (p.length < q.length)

/-- The classifier consulted through the oracle at a given path (spec
section 2 control flow: the Walker calls the Classifier per path). -/
def classifyAt (info : Path → NodeInfo) (p : Path) (a : IncomingAction) : Decision :=
  classify (info p).state a (info p).hasLocalModsInSubtree
    (info p).localCounterpart (info p).incomingMatchesLocal

/-- Modelled from the spec: section 4.2, the per-path step of the Merge
Tree Walker.  Before visiting a path it checks whether any strict ancestor
already decided in this operation is in the ConflictVictim set (then the
path gets `Skip{ancestor_conflicted}` without consulting the classifier),
or in the SkipSet (then `Skip{ancestor_skipped}`); otherwise it consults
the Conflict Classifier. -/
def stepDecide (info : Path → NodeInfo) (decided : List (Path × Decision))
    (p : Path) (a : IncomingAction) : Decision :=
  if decided.any (fun qd => strictAncestorOf qd.1 p && qd.2.isConflict) then
    .Skip .ancestorConflicted
  else if decided.any (fun qd => strictAncestorOf qd.1 p && qd.2.isSkip) then
    .Skip .ancestorSkipped
  else
    classifyAt info p a

/-- Modelled from the spec: section 4.2, the Merge Tree Walker driving the
classifier over the full delta in order, one decision per visited path,
accumulating the decisions already taken so conflict and skip status
propagates from ancestors to descendants.  The delta is presented with
ancestors before descendants, as the spec's traversal order guarantees. -/
def walkFrom (info : Path → NodeInfo) (decided : List (Path × Decision)) :
    List (Path × IncomingAction) → List (Path × Decision)
  | [] => []
  | (p, a) :: rest =>
      let d := stepDecide info decided p a
      (p, d) :: walkFrom info (decided ++ [(p, d)]) rest

/-- Modelled from the spec: section 3, `MergeOperation` — the walk of one
merge operation over its whole delta, with the accumulated per-path
Decisions starting empty. -/
def walk (info : Path → NodeInfo) (delta : List (Path × IncomingAction)) :
    List (Path × Decision) :=
  walkFrom info [] delta

theorem walkFrom_append (info : Path → NodeInfo) (decided : List (Path × Decision))
    (xs ys : List (Path × IncomingAction)) :
    walkFrom info decided (xs ++ ys) =
      walkFrom info decided xs ++
        walkFrom info (decided ++ walkFrom info decided xs) ys := by
  induction xs generalizing decided with
  | nil => simp [walkFrom]
  | cons x rest ih =>
      obtain ⟨p, a⟩ := x
      simp only [List.cons_append, walkFrom, List.append_eq]
      rw [ih]
      have h : decided ++ (p, stepDecide info decided p a) ::
          walkFrom info (decided ++ [(p, stepDecide info decided p a)]) rest =
          (decided ++ [(p, stepDecide info decided p a)]) ++
          walkFrom info (decided ++ [(p, stepDecide info decided p a)]) rest := by
        simp
      rw [h]

theorem walkFrom_length (info : Path → NodeInfo) (decided : List (Path × Decision))
    (xs : List (Path × IncomingAction)) :
    (walkFrom info decided xs).length = xs.length := by
  induction xs generalizing decided with
  | nil => rfl
  | cons x rest ih => obtain ⟨p, a⟩ := x; simp [walkFrom, ih]

theorem walkFrom_map_fst (info : Path → NodeInfo) (decided : List (Path × Decision))
    (xs : List (Path × IncomingAction)) :
    (walkFrom info decided xs).map Prod.fst = xs.map Prod.fst := by
  induction xs generalizing decided with
  | nil => rfl
  | cons x rest ih => obtain ⟨p, a⟩ := x; simp [walkFrom, ih]

/-- If some already-decided strict ancestor of `p` is a tree-conflict
victim, the walker step assigns `Skip{ancestor_conflicted}`. -/
theorem stepDecide_of_conflicted_ancestor (info : Path → NodeInfo)
    (decided : List (Path × Decision)) (p : Path) (a : IncomingAction)
    (q : Path) (d : Decision) (hmem : (q, d) ∈ decided)
    (hanc : strictAncestorOf q p = true) (hconf : d.isConflict = true) :
    stepDecide info decided p a = .Skip .ancestorConflicted := by
  unfold stepDecide
  rw [if_pos]
  rw [List.any_eq_true]
  exact ⟨(q, d), hmem, by simp [hanc, hconf]⟩

/-- Once a conflicted ancestor is recorded among the decisions, every
strict descendant decided later in the same walk receives
`Skip{ancestor_conflicted}`. -/
theorem walkFrom_descendant_of_conflicted (info : Path → NodeInfo)
    (decided : List (Path × Decision)) (p : Path) (d : Decision)
    (hmem : (p, d) ∈ decided) (hconf : d.isConflict = true)
    (rest : List (Path × IncomingAction)) (q : Path)
    (dq : Decision) (hq : (q, dq) ∈ walkFrom info decided rest)
    (hanc : strictAncestorOf p q = true) :
    dq = .Skip .ancestorConflicted := by
  induction rest generalizing decided with
  | nil => simp [walkFrom] at hq
  | cons x rest ih =>
      obtain ⟨r, ar⟩ := x
      simp only [walkFrom, List.mem_cons] at hq
      rcases hq with hq | hq
      · obtain ⟨hq1, hq2⟩ := Prod.mk.injEq .. ▸ hq
        subst hq1
        rw [hq2, stepDecide_of_conflicted_ancestor info decided q ar p d hmem hanc hconf]
      · exact ih (decided ++ [(r, stepDecide info decided r ar)])
          (List.mem_append_left _ hmem) hq

/-! ### Working tree on disk and application of decisions -/

/-- A node materialized on disk: a directory, or a file with its byte
content (spec section 3, Node kind; content is what the out-of-scope
storage collaborator would hold for the node). -/
inductive DiskEntry where
  | dir
  | file (content : String)
  deriving DecidableEq, Repr

/-- The on-disk working tree, as a flat association of paths to
materialized nodes (spec section 9: a flat map from path to node record). -/
abbrev Disk := List (Path × DiskEntry)

/-- Look up the entry materialized at a path. -/
def diskGet (d : Disk) (p : Path) : Option DiskEntry :=
  match d with
  | [] => none
  | (q, e) :: rest => if q = p then some e else diskGet rest p

/-- Modelled from the spec: sections 2 and 4.2, applying one decided
change to the working tree.  Only `Apply` decisions touch the disk: an
edit rewrites the node in place, deletes remove the node (for a subtree
delete, the node together with every descendant), an add materializes the
incoming node, and a replace is the compound delete-then-add.  `Skip` and
`TreeConflict` decisions leave the tree untouched. -/
def applyOne (incoming : Path → DiskEntry) (d : Disk)
    (p : Path) (a : IncomingAction) (dec : Decision) : Disk :=
  match dec with
  | .Apply =>
      match a with
      | .Edit => d.map (fun e => if e.1 = p then (p, incoming p) else e)
      | .DeleteLeaf => d.filter (fun e => !decide (e.1 = p))
      | .DeleteSubtreeRoot => d.filter (fun e => !ancestorOf p e.1)
      | .Add => (p, incoming p) :: d
      | .Replace => (p, incoming p) :: d.filter (fun e => !ancestorOf p e.1)
  | _ => d

/-- Apply a walked delta (each path paired with its incoming action and
its decision) to the working tree, in walk order. -/
def applyAll (incoming : Path → DiskEntry) (d : Disk)
    (l : List ((Path × IncomingAction) × (Path × Decision))) : Disk :=
  l.foldl (fun acc x => applyOne incoming acc x.1.1 x.1.2 x.2.2) d

/-! ### Merge ranges and mergeinfo -/

/-- Modelled from the spec: section 3, `MergeRange` — a revision range
`(start_rev, end_rev]` over a single source path, with the fixed
convention that the revisions covered are those strictly after
`start_rev` up to and including `end_rev`, plus the inheritability flag. -/
structure MergeRange where
  start_rev : Nat
  end_rev : Nat
  inheritable : Bool
  deriving DecidableEq, Repr

/-- Whether revision `v` lies inside the range, under the `(start, end]`
convention the spec fixes. -/
def inRange (r : MergeRange) (v : Nat) : Bool :=
  decide (r.start_rev < v) && decide (v ≤ r.end_rev)

/-- Whether some range of the list covers revision `v`. -/
def inRanges (l : List MergeRange) (v : Nat) : Bool :=
  l.any (fun r => inRange r v)

/-- Modelled from the spec: section 3, the union step of Mergeinfo
recording — a new range is unioned into an ordered set of ranges, with
adjacent or overlapping ranges coalesced. -/
def addRange (r : MergeRange) : List MergeRange → List MergeRange
  | [] => [r]
  | q :: qs =>
      if r.end_rev < q.start_rev then r :: q :: qs
      else if q.end_rev < r.start_rev then q :: addRange r qs
      else
        addRange
          ⟨min r.start_rev q.start_rev, max r.end_rev q.end_rev, r.inheritable⟩ qs

theorem inRanges_cons (q : MergeRange) (qs : List MergeRange) (v : Nat) :
    inRanges (q :: qs) v = (inRange q v || inRanges qs v) := rfl

/-- Coalescing two overlapping or adjacent ranges covers exactly the union
of their revisions. -/
theorem inRange_merge (r q : MergeRange) (v : Nat)
    (h1 : q.start_rev ≤ r.end_rev) (h2 : r.start_rev ≤ q.end_rev) :
    inRange ⟨min r.start_rev q.start_rev, max r.end_rev q.end_rev,
      r.inheritable⟩ v = (inRange r v || inRange q v) := by
  rw [Bool.eq_iff_iff]
  simp only [inRange, Bool.and_eq_true, Bool.or_eq_true, decide_eq_true_eq]
  omega

/-- Unioning a range into a range list covers exactly the revisions of the
new range together with those already covered. -/
theorem inRanges_addRange (r : MergeRange) (l : List MergeRange) (v : Nat) :
    inRanges (addRange r l) v = (inRange r v || inRanges l v) := by
  induction l generalizing r with
  | nil => simp [addRange, inRanges]
  | cons q qs ih =>
      by_cases h1 : r.end_rev < q.start_rev
      · rw [addRange, if_pos h1, inRanges_cons]
      · by_cases h2 : q.end_rev < r.start_rev
        · rw [addRange, if_neg h1, if_pos h2, inRanges_cons, ih,
            inRanges_cons, Bool.or_left_comm]
        · rw [addRange, if_neg h1, if_neg h2, ih,
            inRange_merge r q v (Nat.le_of_not_lt h1) (Nat.le_of_not_lt h2),
            inRanges_cons, Bool.or_assoc]

/-- Mergeinfo keyed by an arbitrary source key: an association of keys to
range lists (spec section 3: mapping from source path to a set of merge
ranges).  Used both with repository source paths as keys (persisted
per-node mergeinfo) and with working-copy paths as keys (the recorder's
per-target bookkeeping). -/
def recordAssoc {κ : Type} [DecidableEq κ] :
    List (κ × List MergeRange) → κ → MergeRange → List (κ × List MergeRange)
  | [], src, r => [(src, [r])]
  | (s, rs) :: rest, src, r =>
      if s = src then (s, addRange r rs) :: rest
      else (s, rs) :: recordAssoc rest src r

/-- Whether the recorded mergeinfo covers revision `v` of source `src`. -/
def coveredAssoc {κ : Type} [DecidableEq κ]
    (mi : List (κ × List MergeRange)) (src : κ) (v : Nat) : Bool :=
  match mi with
  | [] => false
  | (s, rs) :: rest => if s = src then inRanges rs v else coveredAssoc rest src v

/-- Recording a range unions it with (never replaces) what is already
recorded for that source: afterwards exactly the revisions of the new
range plus the previously covered ones are covered. -/
theorem coveredAssoc_recordAssoc {κ : Type} [DecidableEq κ]
    (mi : List (κ × List MergeRange)) (src : κ) (r : MergeRange) (v : Nat) :
    coveredAssoc (recordAssoc mi src r) src v =
      (inRange r v || coveredAssoc mi src v) := by
  induction mi with
  | nil => simp [recordAssoc, coveredAssoc, inRanges]
  | cons e rest ih =>
      obtain ⟨s, rs⟩ := e
      by_cases h : s = src
      · simp [recordAssoc, coveredAssoc, h, inRanges_addRange]
      · simp [recordAssoc, coveredAssoc, h, ih]

/-- Recording for one source leaves the coverage of every other source
unchanged. -/
theorem coveredAssoc_recordAssoc_ne {κ : Type} [DecidableEq κ]
    (mi : List (κ × List MergeRange)) (src src' : κ) (r : MergeRange) (v : Nat)
    (hne : src' ≠ src) :
    coveredAssoc (recordAssoc mi src r) src' v = coveredAssoc mi src' v := by
  induction mi with
  | nil => simp [recordAssoc, coveredAssoc, Ne.symm hne]
  | cons e rest ih =>
      obtain ⟨s, rs⟩ := e
      by_cases h : s = src
      · subst h
        simp [recordAssoc, coveredAssoc, Ne.symm hne]
      · by_cases h' : s = src'
        · simp [recordAssoc, coveredAssoc, h, h', hne]
        · simp [recordAssoc, coveredAssoc, h, h', ih]

/-! ### One merge operation end to end -/

/-- Revisions in the half-open-to-the-left range `(s, e]` (spec section 3,
the fixed `MergeRange` convention). -/
def revsBetween (s e : Nat) : List Nat :=
  (List.range (e + 1)).filter (fun v => decide (s < v))

theorem mem_revsBetween (s e v : Nat) :
    v ∈ revsBetween s e ↔ (s < v ∧ v ≤ e) := by
  simp only [revsBetween, List.mem_filter, List.mem_range, decide_eq_true_eq]
  omega

/-- Modelled from the spec: sections 2 and 3, the state of the merge
target before or after an operation: the Working-Tree State Oracle's
answers, the on-disk tree, and the mergeinfo persisted at the merge
target root, keyed by source path. -/
structure Target where
  info : Path → NodeInfo
  disk : Disk
  mi : List (String × List MergeRange)

/-- Modelled from the spec: section 4.3 — the revisions of the requested
range that the recorded mergeinfo does not yet cover, the only ones a
merge re-offers ("re-running the same merge does not re-offer
already-recorded ranges"). -/
def remainingRevs (mi : List (String × List MergeRange)) (src : String)
    (r : MergeRange) : List Nat :=
  (revsBetween r.start_rev r.end_rev).filter
    (fun v => !coveredAssoc mi src v)

/-- What one merge operation produced: the per-path decisions, the
working tree after application, and the mergeinfo recorded at the merge
target root (spec section 3, `MergeOperation`, discarded after results
are reported and recorded). -/
structure MergeResult where
  decisions : List (Path × Decision)
  diskAfter : Disk
  miAfter : List (String × List MergeRange)

/-- Modelled from the spec: sections 2, 4.2 and 4.3 — one merge operation
end to end.  The Revision Delta Source `deltaOfRev` yields the per-path
changes of each source revision; the operation offers only the revisions
of the requested range not already covered by the target's recorded
mergeinfo, walks the resulting delta, applies the decisions to the disk,
and records the merged range into the root mergeinfo.  Recording happens
whenever any revision was offered, even when every content path was
tree-conflicted and the mergeinfo update is the only applied change. -/
def runMerge (deltaOfRev : Nat → List (Path × IncomingAction))
    (incoming : Path → DiskEntry) (t : Target) (src : String)
    (r : MergeRange) : MergeResult :=
  let delta := (remainingRevs t.mi src r).flatMap deltaOfRev
  let ds := walk t.info delta
  { decisions := ds
    diskAfter := applyAll incoming t.disk (delta.zip ds)
    miAfter :=
      if remainingRevs t.mi src r = [] then t.mi
      else recordAssoc t.mi src r }

/-- The target as left behind by a completed merge operation: the same
oracle, the updated disk and the updated root mergeinfo. -/
def targetAfter (t : Target) (res : MergeResult) : Target :=
  { info := t.info, disk := res.diskAfter, mi := res.miAfter }

/-- After a merge operation, the root mergeinfo covers exactly the
requested range's revisions in addition to whatever it covered before. -/
theorem coveredAssoc_runMerge (deltaOfRev : Nat → List (Path × IncomingAction))
    (incoming : Path → DiskEntry) (t : Target) (src : String)
    (r : MergeRange) (v : Nat) :
    coveredAssoc (runMerge deltaOfRev incoming t src r).miAfter src v =
      (inRange r v || coveredAssoc t.mi src v) := by
  simp only [runMerge]
  by_cases h : remainingRevs t.mi src r = []
  · rw [if_pos h]
    cases hv : inRange r v
    · simp
    · have hmem : v ∈ revsBetween r.start_rev r.end_rev := by
        rw [mem_revsBetween]
        simp only [inRange, Bool.and_eq_true, decide_eq_true_eq] at hv
        exact hv
      have hcov : coveredAssoc t.mi src v = true := by
        by_contra hc
        have : v ∈ remainingRevs t.mi src r := by
          simp only [remainingRevs, List.mem_filter, Bool.not_eq_true']
          exact ⟨hmem, Bool.of_not_eq_true hc⟩
        rw [h] at this
        simp at this
      simp [hcov]
  · rw [if_neg h, coveredAssoc_recordAssoc]

/-- After a merge of range `r`, no revision of `r` remains unoffered: the
operation's remaining-revision computation for the same range is empty. -/
theorem remainingRevs_runMerge (deltaOfRev : Nat → List (Path × IncomingAction))
    (incoming : Path → DiskEntry) (t : Target) (src : String) (r : MergeRange) :
    remainingRevs (runMerge deltaOfRev incoming t src r).miAfter src r = [] := by
  rw [remainingRevs, List.filter_eq_nil_iff]
  intro v hv
  rw [mem_revsBetween] at hv
  have : inRange r v = true := by
    simp only [inRange, Bool.and_eq_true, decide_eq_true_eq]
    exact hv
  rw [Bool.not_eq_true', Bool.not_eq_false]
  rw [coveredAssoc_runMerge, this, Bool.true_or]

/-! ### Mergeinfo recording notifications -/

/-- Modelled from the spec: sections 4.3 and 6 — the outcome code of one
mergeinfo-recording action against a target path: the first recording into
a path in an operation is notified as `U` (updated), a second recording
into the same path within the same operation as `G` (mergeinfo updated
again in the same operation). -/
def notifyCode (seen : List Path) (p : Path) : Char :=
  if p ∈ seen then 'G' else 'U'

/-- Modelled from the spec: section 4.3 — the Mergeinfo Recorder running a
sequence of recording actions of one operation: each action unions its
range into the mergeinfo of its target path and emits one outcome event,
`U` for the first recording into that path and `G` for a repeated one
(multiple-source merges may record into the same target twice). -/
def recordRun (st : List (Path × List MergeRange)) (seen : List Path) :
    List (Path × MergeRange) →
      List (Path × List MergeRange) × List (Path × Char)
  | [] => (st, [])
  | (p, r) :: rest =>
      let code := notifyCode seen p
      let res := recordRun (recordAssoc st p r) (p :: seen) rest
      (res.1, (p, code) :: res.2)

/-! ### Decimal revision numbers in the mergeinfo property -/

/-- Whether a character is a decimal digit. -/
def isDigitChar (c : Char) : Bool := decide ('0' ≤ c) && decide (c ≤ '9')

/-- The character of one decimal digit. -/
def digitChar (d : Nat) : Char := Char.ofNat (48 + d)

/-- Big-endian decimal digits of `n`, with explicit fuel so the function
is structurally recursive; `fuel = n` is always enough. -/
def toDecDigits : Nat → Nat → List Nat
  | 0, _ => []
  | f + 1, n => if n = 0 then [] else toDecDigits f (n / 10) ++ [n % 10]

/-- The value a big-endian digit list denotes. -/
def ofDecDigits (l : List Nat) : Nat := l.foldl (fun a d => 10 * a + d) 0

theorem ofDecDigits_append_singleton (l : List Nat) (d : Nat) :
    ofDecDigits (l ++ [d]) = 10 * ofDecDigits l + d := by
  simp [ofDecDigits, List.foldl_append]

theorem ofDecDigits_toDecDigits (f n : Nat) (h : n ≤ f) :
    ofDecDigits (toDecDigits f n) = n := by
  induction f generalizing n with
  | zero =>
      interval_cases n
      rfl
  | succ f ih =>
      by_cases h0 : n = 0
      · simp [toDecDigits, h0, ofDecDigits]
      · rw [toDecDigits, if_neg h0, ofDecDigits_append_singleton,
          ih (n / 10) (by omega)]
        omega

theorem toDecDigits_lt_ten (f n : Nat) (d : Nat) (hd : d ∈ toDecDigits f n) :
    d < 10 := by
  induction f generalizing n with
  | zero => simp [toDecDigits] at hd
  | succ f ih =>
      by_cases h0 : n = 0
      · simp [toDecDigits, h0] at hd
      · rw [toDecDigits, if_neg h0] at hd
        rcases List.mem_append.mp hd with hmem | hmem
        · exact ih _ hmem
        · simp only [List.mem_singleton] at hmem
          omega

theorem toDecDigits_ne_nil (f n : Nat) (h0 : 0 < n) (hf : n ≤ f) :
    toDecDigits f n ≠ [] := by
  cases f with
  | zero => omega
  | succ f =>
      rw [toDecDigits, if_neg (by omega)]
      simp

/-- The printed characters of revision number `n`. -/
def natChars (n : Nat) : List Char := (toDecDigits n n).map digitChar

theorem isDigitChar_digitChar (d : Nat) (hd : d < 10) :
    isDigitChar (digitChar d) = true := by
  interval_cases d <;> decide

theorem toNat_digitChar (d : Nat) (hd : d < 10) :
    (digitChar d).toNat - 48 = d := by
  interval_cases d <;> decide

theorem natChars_all_digits (n : Nat) (c : Char) (hc : c ∈ natChars n) :
    isDigitChar c = true := by
  simp only [natChars, List.mem_map] at hc
  obtain ⟨d, hd, rfl⟩ := hc
  exact isDigitChar_digitChar d (toDecDigits_lt_ten n n d hd)

theorem natChars_ne_nil (n : Nat) (h0 : 0 < n) : natChars n ≠ [] := by
  simp only [natChars, ne_eq, List.map_eq_nil_iff]
  exact toDecDigits_ne_nil n n h0 (Nat.le_refl n)

theorem natChars_read_back (n : Nat) :
    ofDecDigits ((natChars n).map (fun c => c.toNat - 48)) = n := by
  rw [natChars, List.map_map]
  have hmap : (toDecDigits n n).map ((fun c => c.toNat - 48) ∘ digitChar) =
      toDecDigits n n := by
    apply List.map_congr_left ?_ |>.trans (List.map_id _)
    intro d hd
    exact toNat_digitChar d (toDecDigits_lt_ten n n d hd)
  rw [hmap, ofDecDigits_toDecDigits n n (Nat.le_refl n)]

/-- The longest leading run of digit characters, and the remainder. -/
def spanDigits : List Char → List Char × List Char
  | [] => ([], [])
  | c :: cs =>
      if isDigitChar c then
        ((spanDigits cs).1.cons c, (spanDigits cs).2)
      else ([], c :: cs)

/-- Whether the list starts with a digit character. -/
def headIsDigit : List Char → Bool
  | [] => false
  | c :: _ => isDigitChar c

theorem spanDigits_of_head_not_digit (cs : List Char)
    (h : headIsDigit cs = false) : spanDigits cs = ([], cs) := by
  cases cs with
  | nil => rfl
  | cons c cs =>
      rw [headIsDigit] at h
      rw [spanDigits, if_neg (by simp [h])]

theorem spanDigits_append (ds rest : List Char)
    (hds : ∀ c ∈ ds, isDigitChar c = true)
    (hrest : headIsDigit rest = false) :
    spanDigits (ds ++ rest) = (ds, rest) := by
  induction ds with
  | nil =>
      simp only [List.nil_append]
      exact spanDigits_of_head_not_digit rest hrest
  | cons c cs ih =>
      rw [List.cons_append, spanDigits,
        if_pos (by simp [hds c (List.mem_cons_self c cs)]),
        ih (fun x hx => hds x (List.mem_cons_of_mem c hx))]

/-- Read a decimal number off the front of the character list; fails when
no digit is present. -/
def readNat (cs : List Char) : Option (Nat × List Char) :=
  if (spanDigits cs).1.isEmpty then none
  else some (ofDecDigits ((spanDigits cs).1.map (fun c => c.toNat - 48)),
    (spanDigits cs).2)

theorem readNat_natChars (n : Nat) (rest : List Char) (h0 : 0 < n)
    (hrest : headIsDigit rest = false) :
    readNat (natChars n ++ rest) = some (n, rest) := by
  rw [readNat, spanDigits_append (natChars n) rest (natChars_all_digits n) hrest]
  simp only [List.isEmpty_iff]
  rw [if_neg (natChars_ne_nil n h0), natChars_read_back]

/-! ### The serialized mergeinfo property -/

/-- Modelled from the spec: section 6, one token of a `range-list` — a
single revision when the range covers exactly one revision, otherwise
`start-end` (with the printed start being the first covered revision,
one past the exclusive `start_rev`), suffixed with `*` to mark a
non-inheritable range. -/
def rangeChars (r : MergeRange) : List Char :=
  (if r.end_rev = r.start_rev + 1 then natChars r.end_rev
   else natChars (r.start_rev + 1) ++ '-' :: natChars r.end_rev) ++
  (if r.inheritable then [] else ['*'])

/-- What may follow the second revision of a `start-end` token: nothing,
or the non-inheritability marker. -/
def parseRangeEnd (a b : Nat) : List Char → Option MergeRange
  | [] => some ⟨a - 1, b, true⟩
  | ['*'] => some ⟨a - 1, b, false⟩
  | _ => none

/-- What may follow the first revision of a `range-list` token: nothing
(a single revision), the non-inheritability marker, or a dash and the
end revision. -/
def parseRangeTail (a : Nat) : List Char → Option MergeRange
  | [] => some ⟨a - 1, a, true⟩
  | ['*'] => some ⟨a - 1, a, false⟩
  | '-' :: rest2 =>
      match readNat rest2 with
      | none => none
      | some (b, rest3) => parseRangeEnd a b rest3
  | _ => none

/-- Modelled from the spec: section 6, parsing one `range-list` token.
Anything that is not a well-formed revision or revision pair with an
optional `*` suffix is a hard parse error. -/
def parseRangeChunk (cs : List Char) : Option MergeRange :=
  match readNat cs with
  | none => none
  | some (a, rest) => parseRangeTail a rest

/-- Join character chunks with a separator between consecutive chunks. -/
def joinSep (sep : Char) : List (List Char) → List Char
  | [] => []
  | [x] => x
  | x :: y :: ys => x ++ sep :: joinSep sep (y :: ys)

/-- Prepend a character onto the first chunk of a chunk list. -/
def consHead (c : Char) : List (List Char) → List (List Char)
  | [] => [[c]]
  | g :: gs => (c :: g) :: gs

/-- Split a character list at every occurrence of the separator. -/
def splitOnChar (sep : Char) : List Char → List (List Char)
  | [] => [[]]
  | c :: cs =>
      if c = sep then [] :: splitOnChar sep cs
      else consHead c (splitOnChar sep cs)

theorem splitOnChar_of_not_mem (sep : Char) (cs : List Char)
    (h : sep ∉ cs) : splitOnChar sep cs = [cs] := by
  induction cs with
  | nil => rfl
  | cons c cs ih =>
      have hc : ¬ c = sep := by
        intro hceq
        rw [hceq] at h
        exact h (List.mem_cons_self sep cs)
      rw [splitOnChar, if_neg hc,
        ih (fun hm => h (List.mem_cons_of_mem c hm)), consHead]

theorem splitOnChar_append (sep : Char) (xs ys : List Char)
    (h : sep ∉ xs) :
    splitOnChar sep (xs ++ sep :: ys) = xs :: splitOnChar sep ys := by
  induction xs with
  | nil => simp [splitOnChar]
  | cons c cs ih =>
      have hc : ¬ c = sep := by
        intro hceq
        rw [hceq] at h
        exact h (List.mem_cons_self sep cs)
      rw [List.cons_append, splitOnChar, if_neg hc,
        ih (fun hm => h (List.mem_cons_of_mem c hm)), consHead]

theorem splitOnChar_joinSep (sep : Char) (ps : List (List Char))
    (hne : ps ≠ []) (h : ∀ p ∈ ps, sep ∉ p) :
    splitOnChar sep (joinSep sep ps) = ps := by
  induction ps with
  | nil => exact absurd rfl hne
  | cons p ps ih =>
      cases ps with
      | nil =>
          rw [joinSep, splitOnChar_of_not_mem sep p (h p (List.mem_cons_self p []))]
      | cons q qs =>
          rw [joinSep, splitOnChar_append sep p _ (h p (List.mem_cons_self p _)),
            ih (by simp) (fun x hx => h x (List.mem_cons_of_mem p hx))]

/-- Split an entry line at its first colon into the source path and the
range list; a line with no colon is a hard parse error. -/
def breakColon : List Char → Option (List Char × List Char)
  | [] => none
  | c :: cs =>
      if c = ':' then some ([], cs)
      else
        match breakColon cs with
        | none => none
        | some (a, b) => some (c :: a, b)

theorem breakColon_append (xs ys : List Char) (h : ∀ c ∈ xs, c ≠ ':') :
    breakColon (xs ++ ':' :: ys) = some (xs, ys) := by
  induction xs with
  | nil => simp [breakColon]
  | cons c cs ih =>
      rw [List.cons_append, breakColon,
        if_neg (h c (List.mem_cons_self c cs)),
        ih (fun x hx => h x (List.mem_cons_of_mem c hx))]

/-- All-or-nothing traversal: one failing element makes the whole parse
fail, so no entry is ever silently dropped. -/
def optMapM {α β : Type} (f : α → Option β) : List α → Option (List β)
  | [] => some []
  | x :: xs =>
      match f x, optMapM f xs with
      | some y, some ys => some (y :: ys)
      | _, _ => none

theorem optMapM_map {α β : Type} (f : β → Option α) (g : α → β)
    (l : List α) (h : ∀ x ∈ l, f (g x) = some x) :
    optMapM f (l.map g) = some l := by
  induction l with
  | nil => rfl
  | cons x xs ih =>
      rw [List.map_cons, optMapM, h x (List.mem_cons_self x xs),
        ih (fun y hy => h y (List.mem_cons_of_mem x hy))]

/-- Modelled from the spec: section 6, one serialized entry of the
persisted mergeinfo property: `source-path:range-list` with the range
list comma-separated. -/
def serializeEntry (e : String × List MergeRange) : List Char :=
  e.1.toList ++ ':' :: joinSep ',' (e.2.map rangeChars)

/-- The part of entry-line parsing after the colon split: a nonempty
source path and an all-or-nothing parse of the comma-separated range
tokens. -/
def parseLineBody (pcs rest : List Char) : Option (String × List MergeRange) :=
  if pcs.isEmpty then none
  else
    match optMapM parseRangeChunk (splitOnChar ',' rest) with
    | none => none
    | some rs => some (⟨pcs⟩, rs)

/-- Modelled from the spec: section 6, parsing one entry line; an empty
source path, a missing colon or a malformed range token is a hard parse
error. -/
def parseLine (cs : List Char) : Option (String × List MergeRange) :=
  match breakColon cs with
  | none => none
  | some (pcs, rest) => parseLineBody pcs rest

/-- Modelled from the spec: section 6, the whole persisted property: the
serialized entries separated by newlines. -/
def serializeMergeinfo (m : List (String × List MergeRange)) : List Char :=
  joinSep '\n' (m.map serializeEntry)

/-- Modelled from the spec: section 6, parsing the persisted property:
every newline-separated line must parse, or the whole parse is a hard
error. -/
def parseMergeinfo (cs : List Char) : Option (List (String × List MergeRange)) :=
  optMapM parseLine (splitOnChar '\n' cs)

/-- A character allowed in a serialized source path: anything that cannot
be confused with the structure of the property format. -/
def validPathChar (c : Char) : Bool :=
  !(decide (c = ':') || decide (c = '\n') || decide (c = ','))

/-- A well-formed merge range: it covers at least one revision. -/
def validRange (r : MergeRange) : Bool := decide (r.start_rev < r.end_rev)

/-- Modelled from the spec: section 3, a normalized ordered set of
non-overlapping merge ranges: each range is well formed and consecutive
ranges do not overlap. -/
def normalizedRanges : List MergeRange → Bool
  | [] => true
  | [r] => validRange r
  | r1 :: r2 :: rest =>
      validRange r1 && decide (r1.end_rev ≤ r2.start_rev) &&
        normalizedRanges (r2 :: rest)

/-- A well-formed Mergeinfo value as the spec's data model describes it:
at least one entry, each with a nonempty serializable source path and a
nonempty normalized range list. -/
def validMergeinfo (m : List (String × List MergeRange)) : Bool :=
  !m.isEmpty && m.all (fun e =>
    !e.1.toList.isEmpty && e.1.toList.all validPathChar &&
      !e.2.isEmpty && normalizedRanges e.2)

theorem normalizedRanges_valid (l : List MergeRange)
    (h : normalizedRanges l = true) : ∀ r ∈ l, validRange r = true := by
  induction l with
  | nil => simp
  | cons r1 rest ih =>
      intro r hr
      cases rest with
      | nil =>
          rw [normalizedRanges] at h
          simp only [List.mem_singleton] at hr
          rw [hr]; exact h
      | cons r2 rest2 =>
          rw [normalizedRanges] at h
          simp only [Bool.and_eq_true] at h
          rcases List.mem_cons.mp hr with rfl | hr2
          · exact h.1.1
          · exact ih h.2 r hr2

theorem mem_rangeChars (r : MergeRange) (c : Char) (hc : c ∈ rangeChars r) :
    isDigitChar c = true ∨ c = '-' ∨ c = '*' := by
  rw [rangeChars] at hc
  rcases List.mem_append.mp hc with hm | hm
  · by_cases he : r.end_rev = r.start_rev + 1
    · rw [if_pos he] at hm
      exact Or.inl (natChars_all_digits _ c hm)
    · rw [if_neg he] at hm
      rcases List.mem_append.mp hm with h2 | h2
      · exact Or.inl (natChars_all_digits _ c h2)
      · rcases List.mem_cons.mp h2 with heq | h3
        · exact Or.inr (Or.inl heq)
        · exact Or.inl (natChars_all_digits _ c h3)
  · by_cases hi : r.inheritable = true
    · rw [if_pos hi] at hm
      simp at hm
    · rw [if_neg hi] at hm
      simp only [List.mem_singleton] at hm
      exact Or.inr (Or.inr hm)

theorem mem_joinSep (sep : Char) (ps : List (List Char)) (c : Char)
    (hc : c ∈ joinSep sep ps) : c = sep ∨ ∃ p ∈ ps, c ∈ p := by
  induction ps with
  | nil => simp [joinSep] at hc
  | cons p ps ih =>
      cases ps with
      | nil =>
          rw [joinSep] at hc
          exact Or.inr ⟨p, List.mem_cons_self p [], hc⟩
      | cons q qs =>
          rw [joinSep] at hc
          rcases List.mem_append.mp hc with h1 | h1
          · exact Or.inr ⟨p, List.mem_cons_self p _, h1⟩
          · rcases List.mem_cons.mp h1 with heq | h2
            · exact Or.inl heq
            · rcases ih h2 with h3 | ⟨x, hx1, hx2⟩
              · exact Or.inl h3
              · exact Or.inr ⟨x, List.mem_cons_of_mem p hx1, hx2⟩

theorem comma_not_mem_rangeChars (r : MergeRange) : ',' ∉ rangeChars r := by
  intro hm
  rcases mem_rangeChars r ',' hm with hd | h1 | h2
  · exact absurd hd (by decide)
  · exact absurd h1 (by decide)
  · exact absurd h2 (by decide)

theorem validPathChar_ne (c : Char) (h : validPathChar c = true) :
    c ≠ ':' ∧ c ≠ '\n' ∧ c ≠ ',' := by
  simp only [validPathChar, Bool.not_eq_true', Bool.or_eq_false_iff,
    decide_eq_false_iff_not] at h
  exact ⟨h.1.1, h.1.2, h.2⟩

theorem newline_not_mem_serializeEntry (s : String) (rs : List MergeRange)
    (hpath : ∀ c ∈ s.toList, validPathChar c = true) :
    '\n' ∉ serializeEntry (s, rs) := by
  intro hm
  rw [serializeEntry] at hm
  rcases List.mem_append.mp hm with h1 | h1
  · exact (validPathChar_ne _ (hpath _ h1)).2.1 rfl
  · rcases List.mem_cons.mp h1 with heq | h2
    · exact absurd heq (by decide)
    · rcases mem_joinSep ',' _ '\n' h2 with heq | ⟨p, hp, hcp⟩
      · exact absurd heq (by decide)
      · obtain ⟨r, _, rfl⟩ := List.mem_map.mp hp
        rcases mem_rangeChars r '\n' hcp with hd | h3 | h4
        · exact absurd hd (by decide)
        · exact absurd h3 (by decide)
        · exact absurd h4 (by decide)

theorem headIsDigit_cons (c : Char) (cs : List Char) :
    headIsDigit (c :: cs) = isDigitChar c := rfl

/-- Round trip of one serialized `range-list` token: a well-formed range
survives printing and reparsing unchanged. -/
theorem parseRangeChunk_rangeChars (r : MergeRange) (h : validRange r = true) :
    parseRangeChunk (rangeChars r) = some r := by
  obtain ⟨s, e, inh⟩ := r
  rw [validRange] at h
  simp only [decide_eq_true_eq] at h
  have he1 : 0 < e := by omega
  have hread2 : readNat (natChars e) = some (e, []) := by
    have h0 := readNat_natChars e [] he1 rfl
    rwa [List.append_nil] at h0
  by_cases he : e = s + 1
  · cases inh
    · have hser : rangeChars ⟨s, e, false⟩ = natChars e ++ ['*'] := by
        simp [rangeChars, he]
      have hread : readNat (natChars e ++ ['*']) = some (e, ['*']) :=
        readNat_natChars e ['*'] he1 (by decide)
      rw [hser]
      unfold parseRangeChunk
      rw [hread]
      show parseRangeTail e ['*'] = some ⟨s, e, false⟩
      simp only [parseRangeTail]
      rw [show e - 1 = s from by omega]
    · have hser : rangeChars ⟨s, e, true⟩ = natChars e := by
        simp [rangeChars, he]
      rw [hser]
      unfold parseRangeChunk
      rw [hread2]
      show parseRangeTail e [] = some ⟨s, e, true⟩
      simp only [parseRangeTail]
      rw [show e - 1 = s from by omega]
  · cases inh
    · have hser : rangeChars ⟨s, e, false⟩ =
          natChars (s + 1) ++ '-' :: (natChars e ++ ['*']) := by
        simp [rangeChars, he]
      have hread : readNat (natChars (s + 1) ++ '-' :: (natChars e ++ ['*'])) =
          some (s + 1, '-' :: (natChars e ++ ['*'])) :=
        readNat_natChars (s + 1) _ (by omega)
          (by rw [headIsDigit_cons]; decide)
      have hread3 : readNat (natChars e ++ ['*']) = some (e, ['*']) :=
        readNat_natChars e ['*'] he1 (by decide)
      rw [hser]
      unfold parseRangeChunk
      rw [hread]
      show parseRangeTail (s + 1) ('-' :: (natChars e ++ ['*'])) =
        some ⟨s, e, false⟩
      simp only [parseRangeTail]
      rw [hread3]
      show parseRangeEnd (s + 1) e ['*'] = some ⟨s, e, false⟩
      simp only [parseRangeEnd, Nat.add_sub_cancel]
    · have hser : rangeChars ⟨s, e, true⟩ =
          natChars (s + 1) ++ '-' :: natChars e := by
        simp [rangeChars, he]
      have hread : readNat (natChars (s + 1) ++ '-' :: natChars e) =
          some (s + 1, '-' :: natChars e) :=
        readNat_natChars (s + 1) _ (by omega)
          (by rw [headIsDigit_cons]; decide)
      rw [hser]
      unfold parseRangeChunk
      rw [hread]
      show parseRangeTail (s + 1) ('-' :: natChars e) = some ⟨s, e, true⟩
      simp only [parseRangeTail]
      rw [hread2]
      show parseRangeEnd (s + 1) e [] = some ⟨s, e, true⟩
      simp only [parseRangeEnd, Nat.add_sub_cancel]

/-- Round trip of one serialized mergeinfo entry line. -/
theorem parseLine_serializeEntry (s : String) (rs : List MergeRange)
    (hne : s.toList.isEmpty = false)
    (hpath : ∀ c ∈ s.toList, validPathChar c = true)
    (hrs : rs ≠ []) (hval : ∀ r ∈ rs, validRange r = true) :
    parseLine (serializeEntry (s, rs)) = some (s, rs) := by
  have hbreak : breakColon (serializeEntry (s, rs)) =
      some (s.toList, joinSep ',' (rs.map rangeChars)) := by
    rw [serializeEntry]
    exact breakColon_append _ _ (fun c hc => (validPathChar_ne c (hpath c hc)).1)
  have hsplit : splitOnChar ',' (joinSep ',' (rs.map rangeChars)) =
      rs.map rangeChars :=
    splitOnChar_joinSep ',' _ (by simpa using hrs)
      (by
        intro p hp
        obtain ⟨r, _, rfl⟩ := List.mem_map.mp hp
        exact comma_not_mem_rangeChars r)
  have hmapm : optMapM parseRangeChunk (rs.map rangeChars) = some rs :=
    optMapM_map _ _ rs (fun r hr => parseRangeChunk_rangeChars r (hval r hr))
  have hcond : ¬ s.toList.isEmpty = true := by
    rw [hne]
    simp
  unfold parseLine
  rw [hbreak]
  show parseLineBody s.toList (joinSep ',' (rs.map rangeChars)) = some (s, rs)
  unfold parseLineBody
  rw [if_neg hcond, hsplit, hmapm]
  rfl

/-- Round trip of the whole serialized mergeinfo property, for every
well-formed Mergeinfo value. -/
theorem parseMergeinfo_serializeMergeinfo (m : List (String × List MergeRange))
    (h : validMergeinfo m = true) :
    parseMergeinfo (serializeMergeinfo m) = some m := by
  rw [validMergeinfo, Bool.and_eq_true, List.all_eq_true] at h
  obtain ⟨hne, hall⟩ := h
  have hm : m ≠ [] := by
    intro h0
    rw [h0] at hne
    simp at hne
  have hitem : ∀ e ∈ m, e.1.toList.isEmpty = false ∧
      (∀ c ∈ e.1.toList, validPathChar c = true) ∧ e.2 ≠ [] ∧
      (∀ r ∈ e.2, validRange r = true) := by
    intro e he
    have hthis := hall e he
    simp only [Bool.and_eq_true, Bool.not_eq_true', List.all_eq_true] at hthis
    refine ⟨hthis.1.1.1, hthis.1.1.2, ?_, normalizedRanges_valid _ hthis.2⟩
    intro h0
    have hc := hthis.1.2
    rw [h0] at hc
    simp at hc
  rw [parseMergeinfo, serializeMergeinfo,
    splitOnChar_joinSep '\n' (m.map serializeEntry)
      (by simpa using hm)
      (by
        intro p hp
        obtain ⟨e, he, rfl⟩ := List.mem_map.mp hp
        exact newline_not_mem_serializeEntry e.1 e.2 (hitem e he).2.1)]
  exact optMapM_map _ _ m (fun e he =>
    parseLine_serializeEntry e.1 e.2 (hitem e he).1 (hitem e he).2.1
      (hitem e he).2.2.1 (hitem e he).2.2.2)

/-! ### Derived views of a walk's decisions -/

/-- Modelled from the spec: section 3, the ConflictVictim set — the paths
of a merge operation that received a `TreeConflict` decision. -/
def conflictVictims (ds : List (Path × Decision)) : List Path :=
  (ds.filter (fun pd => pd.2.isConflict)).map Prod.fst

/-- Modelled from the spec: section 4.2 — a path is removed from further
consideration for mergeinfo recording when it or an ancestor was skipped
by the walker. -/
def excludedFromMergeinfo (ds : List (Path × Decision)) (q : Path) : Bool :=
  ds.any (fun pd => pd.2.isSkip && ancestorOf pd.1 q)

theorem mem_conflictVictims (ds : List (Path × Decision)) (p : Path)
    (hp : p ∈ conflictVictims ds) :
    ∃ d, (p, d) ∈ ds ∧ d.isConflict = true := by
  obtain ⟨⟨p', d⟩, hmem, heq⟩ := List.mem_map.mp hp
  obtain ⟨hin, hconf⟩ := List.mem_filter.mp hmem
  cases heq
  exact ⟨d, hin, hconf⟩

/-! ### Helper facts about the walker -/

theorem stepDecide_isSkip_of_missing (info : Path → NodeInfo)
    (decided : List (Path × Decision)) (p : Path) (a : IncomingAction)
    (hst : (info p).state = .MissingFromDisk) :
    (stepDecide info decided p a).isSkip = true := by
  unfold stepDecide
  split
  · rfl
  · split
    · rfl
    · unfold classifyAt
      rw [hst]
      cases a <;> rfl

theorem walkFrom_missing_skip (info : Path → NodeInfo)
    (delta : List (Path × IncomingAction)) :
    ∀ (decided : List (Path × Decision)) (p : Path) (d : Decision),
      (p, d) ∈ walkFrom info decided delta →
      (info p).state = .MissingFromDisk → d.isSkip = true := by
  induction delta with
  | nil =>
      intro decided p d h
      simp [walkFrom] at h
  | cons x rest ih =>
      intro decided p d h hst
      obtain ⟨r, ar⟩ := x
      rw [walkFrom] at h
      rcases List.mem_cons.mp h with heq | hmem
      · rw [Prod.mk.injEq] at heq
        obtain ⟨rfl, rfl⟩ := heq
        exact stepDecide_isSkip_of_missing info decided p ar hst
      · exact ih _ p d hmem hst

theorem stepDecide_isSkip_of_obstructed (info : Path → NodeInfo)
    (decided : List (Path × Decision)) (p : Path) (a : IncomingAction)
    (hst : (info p).state = .Obstructed .unversionedItem) :
    (stepDecide info decided p a).isSkip = true := by
  unfold stepDecide
  split
  · rfl
  · split
    · rfl
    · unfold classifyAt
      rw [hst]
      cases a <;> rfl

theorem walkFrom_obstructed_skip (info : Path → NodeInfo)
    (delta : List (Path × IncomingAction)) :
    ∀ (decided : List (Path × Decision)) (p : Path) (d : Decision),
      (p, d) ∈ walkFrom info decided delta →
      (info p).state = .Obstructed .unversionedItem → d.isSkip = true := by
  induction delta with
  | nil =>
      intro decided p d h
      simp [walkFrom] at h
  | cons x rest ih =>
      intro decided p d h hst
      obtain ⟨r, ar⟩ := x
      rw [walkFrom] at h
      rcases List.mem_cons.mp h with heq | hmem
      · rw [Prod.mk.injEq] at heq
        obtain ⟨rfl, rfl⟩ := heq
        exact stepDecide_isSkip_of_obstructed info decided p ar hst
      · exact ih _ p d hmem hst

/-! ### The claims -/

/-- C1: for every merge operation and every path `p` in the ConflictVictim
set, no strict descendant of `p` receives `Apply`; the descendant instead
receives `Skip{ancestor_conflicted}` — even when its own (local state,
incoming action) pair would classify as `Apply`, since the walker assigns
the skip without consulting the classifier.  The delta is presented with
`p` decided before its descendant `q`, as the spec's ancestors-before-
descendants traversal order guarantees; the oracle `info` is arbitrary, so
the conclusion holds in particular when `q`'s own pair would be applied. -/
theorem C1_conflict_blocks_descendants (info : Path → NodeInfo)
    (l1 l2 : List (Path × IncomingAction)) (p q : Path) (aq : IncomingAction)
    (hp : p ∈ conflictVictims (walk info l1))
    (hanc : strictAncestorOf p q = true) :
    (walk info (l1 ++ (q, aq) :: l2)).get? l1.length =
      some (q, .Skip .ancestorConflicted) := by
  obtain ⟨d, hmem, hconf⟩ := mem_conflictVictims _ p hp
  rw [walk] at hmem
  rw [walk, walkFrom_append]
  rw [List.get?_append_right (by rw [walkFrom_length])]
  rw [walkFrom_length, Nat.sub_self]
  rw [List.nil_append, walkFrom]
  rw [stepDecide_of_conflicted_ancestor info (walkFrom info [] l1) q aq p d
    hmem hanc hconf]
  rfl

/-- Concrete instance of C1: a locally deleted directory `D` is edited by
the incoming delta and becomes a tree-conflict victim; its child `D/x`,
whose own pair (`Unmodified`, `Edit`) would classify as `Apply`, instead
receives `Skip{ancestor_conflicted}`. -/
def c1Info : Path → NodeInfo := fun p =>
  if p = ["D"] then ⟨.DeletedSubtreeRoot, false, true, true⟩
  else ⟨.Unmodified, false, true, true⟩

theorem C1_conflict_blocks_descendants_witness :
    ["D"] ∈ conflictVictims (walk c1Info [(["D"], .Edit)]) ∧
      classifyAt c1Info ["D", "x"] .Edit = .Apply ∧
      (walk c1Info ([(["D"], .Edit)] ++ [(["D", "x"], .Edit)])).get? 1 =
        some (["D", "x"], .Skip .ancestorConflicted) :=
  ⟨by decide, by decide,
    C1_conflict_blocks_descendants c1Info [(["D"], .Edit)] [] ["D"] ["D", "x"]
      .Edit (by decide) (by decide)⟩

/-- C10: a `TreeConflict` decision at `p` has no effect on non-descendant
paths of the same merge operation: a path `q` that is not a descendant of
`p`, none of whose own ancestors are conflicted or skipped, and whose own
(local state, incoming action) pair classifies as `Apply`, is applied
normally. -/
theorem C10_conflict_frame (info : Path → NodeInfo)
    (l1 l2 : List (Path × IncomingAction)) (p q : Path) (aq : IncomingAction)
    (_hp : p ∈ conflictVictims (walk info l1))
    (_hnotanc : strictAncestorOf p q = false)
    (hclean : ∀ r dr, (r, dr) ∈ walk info l1 → strictAncestorOf r q = true →
      dr.isConflict = false ∧ dr.isSkip = false)
    (happ : classifyAt info q aq = .Apply) :
    (walk info (l1 ++ (q, aq) :: l2)).get? l1.length = some (q, .Apply) := by
  simp only [walk] at hclean
  rw [walk, walkFrom_append]
  rw [List.get?_append_right (by rw [walkFrom_length])]
  rw [walkFrom_length, Nat.sub_self]
  rw [List.nil_append, walkFrom]
  have hnc : (walkFrom info [] l1).any
      (fun qd => strictAncestorOf qd.1 q && qd.2.isConflict) = false := by
    rw [List.any_eq_false]
    rintro ⟨r, dr⟩ hmem
    by_cases hra : strictAncestorOf r q = true
    · simp [hra, (hclean r dr hmem hra).1]
    · simp [Bool.of_not_eq_true hra]
  have hns : (walkFrom info [] l1).any
      (fun qd => strictAncestorOf qd.1 q && qd.2.isSkip) = false := by
    rw [List.any_eq_false]
    rintro ⟨r, dr⟩ hmem
    by_cases hra : strictAncestorOf r q = true
    · simp [hra, (hclean r dr hmem hra).2]
    · simp [Bool.of_not_eq_true hra]
  rw [stepDecide, if_neg (by rw [hnc]; simp), if_neg (by rw [hns]; simp), happ]
  rfl

/-- Concrete instance of C10, following `merge_tree_deleted_in_target`:
directory `E` is tree-conflicted by the incoming edit over the local
deletion, while the sibling file `lambda` still receives its ordinary
`Apply` for the incoming edit. -/
def c10Info : Path → NodeInfo := fun p =>
  if p = ["E"] then ⟨.DeletedSubtreeRoot, false, true, true⟩
  else ⟨.Unmodified, false, true, true⟩

theorem C10_conflict_frame_witness :
    ["E"] ∈ conflictVictims (walk c10Info [(["E"], .Edit)]) ∧
      classifyAt c10Info ["lambda"] .Edit = .Apply ∧
      (walk c10Info ([(["E"], .Edit)] ++ [(["lambda"], .Edit)])).get? 1 =
        some (["lambda"], .Apply) :=
  ⟨by decide, by decide,
    C10_conflict_frame c10Info [(["E"], .Edit)] [] ["E"] ["lambda"] .Edit
      (by decide) (by decide)
      (by
        intro r dr hmem hanc
        have hw : walk c10Info [(["E"], IncomingAction.Edit)] =
            [(["E"], Decision.TreeConflict .DeletedSubtreeRoot .Edit)] := by
          decide
        rw [hw, List.mem_singleton, Prod.mk.injEq] at hmem
        obtain ⟨rfl, rfl⟩ := hmem
        exact absurd hanc (by decide))
      (by decide)⟩

/-- The spec's local-edit versus incoming-delete scenario: the merge
target holds directory `D` with the locally edited file `D/lambda`;
revision 3 of the source deletes the whole subtree `D`. -/
def c2Info : Path → NodeInfo := fun p =>
  if p = ["D", "lambda"] then ⟨.Edited true false, true, true, true⟩
  else if p = ["D"] then ⟨.Unmodified, true, true, true⟩
  else ⟨.Unmodified, false, true, true⟩

def c2Disk : Disk :=
  [(["D"], .dir), (["D", "lambda"], .file "This is the file 'lambda'.\n")]

def c2DeltaOfRev : Nat → List (Path × IncomingAction) := fun v =>
  if v = 3 then [(["D"], .DeleteSubtreeRoot)] else []

def c2Result : MergeResult :=
  runMerge c2DeltaOfRev (fun _ => .dir) ⟨c2Info, c2Disk, []⟩ "/source" ⟨2, 3, true⟩

/-- C2: with local state `Edited` at `lambda` and an incoming subtree
delete covering its parent directory over the range r2→r3, the decision at
the directory is `TreeConflict`, mergeinfo `/source:3` is nevertheless
recorded at the merge root, and `lambda` stays on disk untouched. -/
theorem C2_local_edit_vs_incoming_delete :
    c2Result.decisions =
        [(["D"], .TreeConflict .Unmodified .DeleteSubtreeRoot)] ∧
      serializeMergeinfo c2Result.miAfter = "/source:3".toList ∧
      diskGet c2Result.diskAfter ["D", "lambda"] =
        some (.file "This is the file 'lambda'.\n") := by
  refine ⟨by decide, by decide, by decide⟩

/-- The use-case-4.1 scenario of the test suite: the subtree `D/D1` is
locally deleted (so it is gone from disk), and the incoming delta edits
the directory and its leaf `D/D1/delta`. -/
def c3Info : Path → NodeInfo := fun p =>
  if p = ["D", "D1"] then ⟨.DeletedSubtreeRoot, false, true, true⟩
  else if p = ["D", "D1", "delta"] then ⟨.DeletedSubtreeRoot, false, true, true⟩
  else ⟨.Unmodified, false, true, true⟩

def c3Delta : List (Path × IncomingAction) :=
  [(["D", "D1"], .Edit), (["D", "D1", "delta"], .Edit)]

def c3Disk : Disk := [(["D"], .dir)]

def c3DiskAfter : Disk :=
  applyAll (fun _ => .dir) c3Disk (c3Delta.zip (walk c3Info c3Delta))

/-- C3: with local `DeletedSubtreeRoot` at `D/D1` and an incoming edit on
`D/D1/delta`, the decision at `D/D1` is `TreeConflict`, `D/D1/delta`'s own
classification is suppressed (it receives the ancestor-conflicted skip
instead), and the disk still reflects the local deletion afterwards:
nothing changed and no entry exists at or under `D/D1`. -/
theorem C3_local_tree_del_vs_incoming_leaf_edit :
    walk c3Info c3Delta =
        [(["D", "D1"], .TreeConflict .DeletedSubtreeRoot .Edit),
          (["D", "D1", "delta"], .Skip .ancestorConflicted)] ∧
      c3DiskAfter = c3Disk ∧
      c3DiskAfter.all (fun entry => !ancestorOf ["D", "D1"] entry.1) = true := by
  refine ⟨by decide, by decide, by decide⟩

/-- C4: mergeinfo for the merged range is recorded at the merge target
even when every content path in the delta was tree-conflicted — after any
run, every revision of the requested range is covered in addition to what
was covered before, with no condition on the decisions — and re-running
the same merge range against the same target is idempotent: the second
run produces no decisions at all and records exactly the first run's
ranges. -/
theorem C4_recording_and_idempotence
    (deltaOfRev : Nat → List (Path × IncomingAction))
    (incoming : Path → DiskEntry) (t : Target) (src : String) (r : MergeRange) :
    (∀ v, coveredAssoc (runMerge deltaOfRev incoming t src r).miAfter src v =
        (inRange r v || coveredAssoc t.mi src v)) ∧
      (runMerge deltaOfRev incoming
          (targetAfter t (runMerge deltaOfRev incoming t src r)) src r).decisions
        = [] ∧
      (runMerge deltaOfRev incoming
          (targetAfter t (runMerge deltaOfRev incoming t src r)) src r).miAfter
        = (runMerge deltaOfRev incoming t src r).miAfter := by
  refine ⟨fun v => coveredAssoc_runMerge deltaOfRev incoming t src r v, ?_, ?_⟩
  · show walk _ ((remainingRevs (targetAfter t
        (runMerge deltaOfRev incoming t src r)).mi src r).flatMap deltaOfRev) = []
    rw [show (targetAfter t (runMerge deltaOfRev incoming t src r)).mi =
        (runMerge deltaOfRev incoming t src r).miAfter from rfl]
    rw [remainingRevs_runMerge]
    rfl
  · show (if remainingRevs (targetAfter t
          (runMerge deltaOfRev incoming t src r)).mi src r = [] then _ else _)
        = (runMerge deltaOfRev incoming t src r).miAfter
    rw [show (targetAfter t (runMerge deltaOfRev incoming t src r)).mi =
        (runMerge deltaOfRev incoming t src r).miAfter from rfl]
    rw [remainingRevs_runMerge]
    rfl

/-- C5: when one operation records mergeinfo into the same target path
twice — as a two-URL merge whose source changed across the operation
does — the second recording unions with the first rather than replacing
it (the final coverage is exactly the union of both ranges and the prior
coverage), and the path emits two successive outcome events, `U` then
`G`. -/
theorem C5_double_recording_unions (st : List (Path × List MergeRange))
    (p : Path) (r1 r2 : MergeRange) :
    (recordRun st [] [(p, r1), (p, r2)]).2 = [(p, 'U'), (p, 'G')] ∧
      ∀ v, coveredAssoc (recordRun st [] [(p, r1), (p, r2)]).1 p v =
        (inRange r1 v || inRange r2 v || coveredAssoc st p v) := by
  constructor
  · simp [recordRun, notifyCode]
  · intro v
    show coveredAssoc (recordAssoc (recordAssoc st p r1) p r2) p v = _
    rw [coveredAssoc_recordAssoc, coveredAssoc_recordAssoc]
    cases inRange r1 v <;> cases inRange r2 v <;> simp

/-- C6: an unmodified versioned file exists at the target path and the
incoming action adds a different file with differing content at that same
path (the `merge_add_over_versioned_file_conflicts` scenario): the
decision is `TreeConflict` and the original file's content is left
byte-for-byte unchanged. -/
def c6Info : Path → NodeInfo := fun p =>
  if p = ["alpha"] then ⟨.Unmodified, false, true, false⟩
  else ⟨.Unmodified, false, false, true⟩

def c6Disk : Disk := [(["alpha"], .file "This is the file 'alpha'.\n")]

def c6Delta : List (Path × IncomingAction) := [(["alpha"], .Add)]

def c6DiskAfter : Disk :=
  applyAll (fun _ => .file "new alpha content\n") c6Disk
    (c6Delta.zip (walk c6Info c6Delta))

theorem C6_add_over_versioned_file :
    walk c6Info c6Delta = [(["alpha"], .TreeConflict .Unmodified .Add)] ∧
      diskGet c6DiskAfter ["alpha"] =
        some (.file "This is the file 'alpha'.\n") := by
  refine ⟨by decide, by decide⟩

/-- C7: for every incoming action, a path whose local state is
`MissingFromDisk` is classified `Skip` — and in any walk such a path only
ever lands in the skipped set, never among the tree conflicts — while the
merge continues for the remaining paths: the walk still visits every
delta path. -/
theorem C7_missing_from_disk_skips :
    (∀ (a : IncomingAction) (h lc m : Bool),
        classify .MissingFromDisk a h lc m = .Skip .missingFromDisk) ∧
      (∀ (info : Path → NodeInfo) (delta : List (Path × IncomingAction))
          (p : Path) (d : Decision), (p, d) ∈ walk info delta →
          (info p).state = .MissingFromDisk → d.isSkip = true) ∧
      (∀ (info : Path → NodeInfo) (delta : List (Path × IncomingAction)),
        (walk info delta).map Prod.fst = delta.map Prod.fst) := by
  refine ⟨?_, ?_, ?_⟩
  · intro a h lc m
    cases a <;> rfl
  · intro info delta p d hmem hst
    exact walkFrom_missing_skip info delta [] p d hmem hst
  · intro info delta
    exact walkFrom_map_fst info [] delta

def c7Info : Path → NodeInfo := fun _ => ⟨.MissingFromDisk, false, false, false⟩

theorem C7_missing_from_disk_skips_witness :
    classify .MissingFromDisk .Edit false false false =
        .Skip .missingFromDisk ∧
      ((["F", "alpha"], Decision.Skip .missingFromDisk) ∈
          walk c7Info [(["F", "alpha"], .Edit)] ∧
        Decision.isSkip (.Skip .missingFromDisk) = true) ∧
      (walk c7Info [(["F", "alpha"], .Edit)]).map Prod.fst =
        [(["F", "alpha"], IncomingAction.Edit)].map Prod.fst :=
  ⟨C7_missing_from_disk_skips.1 .Edit false false false,
    ⟨by decide,
      C7_missing_from_disk_skips.2.1 c7Info [(["F", "alpha"], .Edit)]
        ["F", "alpha"] (.Skip .missingFromDisk) (by decide) rfl⟩,
    C7_missing_from_disk_skips.2.2 c7Info [(["F", "alpha"], .Edit)]⟩

/-- The `tree_conflicts_and_obstructions` scenario: the incoming delta
deletes `alpha` (clean at the target) and adds `alpha-moved`, whose path
is occupied by an unversioned file. -/
def c8Info : Path → NodeInfo := fun p =>
  if p = ["alpha-moved"] then ⟨.Obstructed .unversionedItem, false, true, false⟩
  else ⟨.Unmodified, false, true, true⟩

def c8Delta : List (Path × IncomingAction) :=
  [(["alpha"], .DeleteLeaf), (["alpha-moved"], .Add)]

/-- C8: when a path is obstructed by an unversioned item, the decision
for that path is `Skip`, not `TreeConflict`: the classifier maps an
unversioned obstruction to `Skip{obstructed}` for every incoming action;
in any walk such a path only ever receives a `Skip` decision (so it is
never a tree conflict); the walker excludes the path and its whole
subtree (every `q` it is an ancestor of) from mergeinfo recording; and
the rest of the merge still applies normally — in the
`tree_conflicts_and_obstructions` scenario the unobstructed sibling's
incoming delete receives its ordinary `Apply` while the obstructed path
is skipped. -/
theorem C8_unversioned_obstruction_skips :
    (∀ (a : IncomingAction) (h lc m : Bool),
        classify (.Obstructed .unversionedItem) a h lc m =
          .Skip .obstructed) ∧
      (∀ (info : Path → NodeInfo) (delta : List (Path × IncomingAction))
          (p : Path) (d : Decision), (p, d) ∈ walk info delta →
          (info p).state = .Obstructed .unversionedItem → d.isSkip = true) ∧
      (∀ (info : Path → NodeInfo) (delta : List (Path × IncomingAction))
          (p : Path) (d : Decision) (q : Path), (p, d) ∈ walk info delta →
          (info p).state = .Obstructed .unversionedItem →
          ancestorOf p q = true →
          excludedFromMergeinfo (walk info delta) q = true) ∧
      walk c8Info c8Delta =
        [(["alpha"], .Apply), (["alpha-moved"], .Skip .obstructed)] := by
  refine ⟨?_, ?_, ?_, by decide⟩
  · intro a h lc m
    cases a <;> rfl
  · intro info delta p d hmem hst
    exact walkFrom_obstructed_skip info delta [] p d hmem hst
  · intro info delta p d q hmem hst hanc
    have hskip : d.isSkip = true :=
      walkFrom_obstructed_skip info delta [] p d hmem hst
    rw [excludedFromMergeinfo, List.any_eq_true]
    exact ⟨(p, d), hmem, by simp [hskip, hanc]⟩

/-- A walk in which the obstructed path has a whole subtree below it: the
directory `obstr` is occupied by an unversioned item, the incoming delta
adds it, a child inside it, and edits the unrelated sibling `beta`. -/
def c8TreeInfo : Path → NodeInfo := fun p =>
  if p = ["obstr"] then ⟨.Obstructed .unversionedItem, false, true, false⟩
  else ⟨.Unmodified, false, true, true⟩

def c8TreeDelta : List (Path × IncomingAction) :=
  [(["obstr"], .Add), (["obstr", "child"], .Add), (["beta"], .Edit)]

theorem C8_unversioned_obstruction_skips_witness :
    classify (.Obstructed .unversionedItem) .Add false true false =
        .Skip .obstructed ∧
      ((["obstr"], Decision.Skip .obstructed) ∈ walk c8TreeInfo c8TreeDelta ∧
        Decision.isSkip (.Skip .obstructed) = true) ∧
      (ancestorOf ["obstr"] ["obstr", "child"] = true ∧
        excludedFromMergeinfo (walk c8TreeInfo c8TreeDelta)
          ["obstr", "child"] = true ∧
        excludedFromMergeinfo (walk c8TreeInfo c8TreeDelta) ["obstr"] = true) ∧
      excludedFromMergeinfo (walk c8TreeInfo c8TreeDelta) ["beta"] = false ∧
      (["beta"], Decision.Apply) ∈ walk c8TreeInfo c8TreeDelta :=
  ⟨C8_unversioned_obstruction_skips.1 .Add false true false,
    ⟨by decide,
      C8_unversioned_obstruction_skips.2.1 c8TreeInfo c8TreeDelta ["obstr"]
        (.Skip .obstructed) (by decide) rfl⟩,
    ⟨by decide,
      C8_unversioned_obstruction_skips.2.2.1 c8TreeInfo c8TreeDelta ["obstr"]
        (.Skip .obstructed) ["obstr", "child"] (by decide) rfl (by decide),
      C8_unversioned_obstruction_skips.2.2.1 c8TreeInfo c8TreeDelta ["obstr"]
        (.Skip .obstructed) ["obstr"] (by decide) rfl (by decide)⟩,
    by decide, by decide⟩

/-- C9: serializing any well-formed Mergeinfo value (a mapping from
source path to a normalized ordered set of non-overlapping ranges) to the
newline-separated `source-path:range-list` property format and parsing it
back yields the structure unchanged, range for range; and a malformed
entry is a hard parse error for the whole property, never a silent
drop. -/
theorem C9_mergeinfo_round_trip :
    (∀ m, validMergeinfo m = true →
        parseMergeinfo (serializeMergeinfo m) = some m) ∧
      parseMergeinfo ("/A:3\n/B:x".toList) = none := by
  refine ⟨parseMergeinfo_serializeMergeinfo, by decide⟩

def c9Example : List (String × List MergeRange) :=
  [("/A", [⟨1, 4, true⟩, ⟨5, 7, false⟩]), ("/source", [⟨2, 3, true⟩])]

theorem C9_mergeinfo_round_trip_witness :
    validMergeinfo c9Example = true ∧
      parseMergeinfo (serializeMergeinfo c9Example) = some c9Example :=
  ⟨by decide, C9_mergeinfo_round_trip.1 c9Example (by decide)⟩

end Svn
